import Mathlib

/-
Verification of the schlep SFTP server's VFS and session layers against its
specification. The Rust sources are shallowly embedded: UTF-8 paths become a
flag for absoluteness plus a list of components (the component iterators of
std::path / camino normalize away empty and interior "." segments, which we
assume pre-applied; ".." stays a literal component, as in the source), byte
strings become lists of naturals, and fallible operations return Except.
-/

namespace Schlep

/-- A UTF-8 path: `absolute` models the leading RootDir component of
`camino::Utf8Path`, `comps` the remaining components in order. -/
structure RPath where
  absolute : Bool
  comps : List String
deriving DecidableEq, Repr

/-- Component count as computed by `vfs_root.components().count()` in
`VfsSetBuilder::local_dir`: the RootDir of an absolute path counts as one
component. -/
def numComponents (p : RPath) : Nat :=
  p.comps.length + (if p.absolute then 1 else 0)

/-- `camino::Utf8Path::starts_with`, component-wise: the base's components
(including RootDir) are a prefix of the path's components. With RootDir
folded into the `absolute` flag this is flag equality plus list prefix. -/
def pathStartsWith (path base : RPath) : Prop :=
  path.absolute = base.absolute ∧ base.comps <+: path.comps

instance (path base : RPath) : Decidable (pathStartsWith path base) := by
  unfold pathStartsWith; infer_instance

/-- The loop of `pathdiff::diff_paths`, translated clause by clause. `pa` is
the remaining component iterator of `path`, `ba` that of `base`, `comps` the
accumulator. Matches the source's guards: common components are stripped only
while `comps` is empty; a remaining base `"."` consumes one path component; a
remaining base `".."` aborts with `None`; a mismatch emits one `".."` for the
mismatched base component plus one per remaining base component, then the
rest of the path. -/
def diffLoop : List String → List String → List String → Option (List String)
  | pa, [], comps =>
    match pa with
    | [] => some comps
    | a :: ra => some (comps ++ a :: ra)
  | pa, b :: rb, comps =>
    match pa with
    | [] => diffLoop [] rb (comps ++ [".."])
    | a :: ra =>
      if comps = [] ∧ a = b then diffLoop ra rb comps
      else if b = "." then diffLoop ra rb (comps ++ [a])
      else if b = ".." then none
      else some (comps ++ ".." :: rb.map (fun _ => "..") ++ a :: ra)

/-- `pathdiff::diff_utf8_paths(path, base)`. When exactly one side is
absolute the source returns the path itself (if absolute) or `None`;
otherwise it runs the component loop, whose collected components always form
a relative path. -/
def diffPaths (path base : RPath) : Option RPath :=
  if path.absolute = base.absolute then
    (diffLoop path.comps base.comps []).map (fun cs => ⟨false, cs⟩)
  else if path.absolute then some path else none

/-- The relative path `"."` produced by `VfsSet::resolve_path` on an exact
mount match. -/
def dotPath : RPath := ⟨false, ["."]⟩

theorem diffLoop_of_isPrefix (ba : List String) :
    ∀ pa : List String, ba <+: pa → diffLoop pa ba [] = some (pa.drop ba.length) := by
  induction ba with
  | nil =>
    intro pa _
    cases pa with
    | nil => rfl
    | cons a ra => simp [diffLoop]
  | cons b rb ih =>
    intro pa hpre
    obtain ⟨t, ht⟩ := hpre
    cases pa with
    | nil => simp at ht
    | cons a ra =>
      have hab : a = b := by
        have := ht
        simp [List.cons_append] at this
        exact this.1.symm
      have hra : rb <+: ra := by
        refine ⟨t, ?_⟩
        have := ht
        simp [List.cons_append] at this
        exact this.2
      subst hab
      simp only [diffLoop, if_pos (And.intro rfl rfl)]
      simpa using ih ra hra

theorem diffPaths_of_startsWith {q p : RPath} (h : pathStartsWith q p) :
    diffPaths q p = some ⟨false, q.comps.drop p.comps.length⟩ := by
  obtain ⟨hflag, hpre⟩ := h
  unfold diffPaths
  rw [hflag]
  simp [diffLoop_of_isPrefix p.comps q.comps hpre]

theorem startsWith_numComponents_le {q p : RPath} (h : pathStartsWith q p) :
    numComponents p ≤ numComponents q := by
  obtain ⟨hflag, hpre⟩ := h
  unfold numComponents
  rw [hflag]
  exact Nat.add_le_add_right (List.IsPrefix.length_le hpre) _

theorem startsWith_eq_of_comps_le {q p : RPath} (h : pathStartsWith q p)
    (hlen : q.comps.length ≤ p.comps.length) : p = q := by
  obtain ⟨hflag, hpre⟩ := h
  have : p.comps = q.comps := List.IsPrefix.eq_of_length_le hpre hlen
  cases p; cases q
  simp_all

theorem pathStartsWith_refl (q : RPath) : pathStartsWith q q :=
  ⟨rfl, List.prefix_refl _⟩

/-- One entry of `VfsSet.vfs_map`: the mount's path, the cached component
count, and the identity of the `Arc<VfsInstance>` (each call of
`VfsSetBuilder::local_dir` allocates a fresh `Arc`, so backend instances are
identified by a number; `Arc::ptr_eq` becomes equality of these numbers). -/
structure Mount where
  mpath : RPath
  count : Nat
  vfsId : Nat
deriving DecidableEq, Repr

/-- `VfsSetBuilder::local_dir` caches `vfs_root.components().count()` next to
the backend; a `VfsSet` is the resulting collection of mounts (the source's
`HashMap` iterated in arbitrary order is modelled as a list in arbitrary
order, with distinct keys). -/
def mkVfsSet (entries : List (RPath × Nat)) : List Mount :=
  entries.map (fun e => ⟨e.1, numComponents e.1, e.2⟩)

/-- The loop of `VfsSet::resolve_path`: `best`/`longest` are the
`best_match`/`longest_match` accumulators. A mount is considered when the
query starts with its path and its cached count beats `longest`; an empty
relative diff (exact match) returns `"."` immediately. The source unwraps
`diff_utf8_paths`, which cannot fail when `starts_with` holds
(`diffPaths_of_startsWith`); the unreachable `none` branch skips the entry. -/
def resolveGo (q : RPath) : List Mount → Option (RPath × Nat) → Nat → Option (RPath × Nat)
  | [], best, _ => best
  | m :: rest, best, longest =>
    if pathStartsWith q m.mpath ∧ m.count > longest then
      match diffPaths q m.mpath with
      | some rel =>
        if rel = ⟨false, []⟩ then some (dotPath, m.vfsId)
        else resolveGo q rest (some (rel, m.vfsId)) m.count
      | none => resolveGo q rest best longest
    else resolveGo q rest best longest

/-- `VfsSet::resolve_path(path)`: run the loop with no best match yet. The
result pairs the relative path with the owning backend's identity. -/
def resolvePath (set : List Mount) (q : RPath) : Option (RPath × Nat) :=
  resolveGo q set none 0

theorem diffPaths_empty_imp_eq {q p : RPath} (h : pathStartsWith q p)
    (hd : diffPaths q p = some ⟨false, []⟩) : p = q := by
  rw [diffPaths_of_startsWith h] at hd
  have hdrop : q.comps.drop p.comps.length = [] := by
    have := congrArg (fun r => (Option.getD r ⟨false, []⟩).comps) hd
    simpa using this
  have hlen : q.comps.length ≤ p.comps.length := by
    have := congrArg List.length hdrop
    simp [List.length_drop] at this
    omega
  exact startsWith_eq_of_comps_le h hlen

theorem resolveGo_spec (q : RPath) (entries : List (RPath × Nat)) :
    ∀ (ms : List Mount) (best : Option (RPath × Nat)) (longest : Nat),
    (∀ m ∈ ms, (m.mpath, m.vfsId) ∈ entries ∧ m.count = numComponents m.mpath) →
    (match best with
     | none => longest = 0
     | some (_, vid) => ∃ p, (p, vid) ∈ entries ∧ pathStartsWith q p ∧ numComponents p = longest) →
    (match resolveGo q ms best longest with
     | none => best = none ∧ ∀ m ∈ ms, pathStartsWith q m.mpath → m.count ≤ longest
     | some (_, vid) => ∃ p, (p, vid) ∈ entries ∧ pathStartsWith q p ∧
         longest ≤ numComponents p ∧
         ∀ m ∈ ms, pathStartsWith q m.mpath → m.count ≤ numComponents p) := by
  intro ms
  induction ms with
  | nil =>
    intro best longest _ hbest
    cases best with
    | none => exact ⟨rfl, by simp⟩
    | some b =>
      obtain ⟨rel, vid⟩ := b
      obtain ⟨p, hp, hsw, hn⟩ := hbest
      exact ⟨p, hp, hsw, le_of_eq hn.symm, by simp⟩
  | cons m rest ih =>
    intro best longest hsub hbest
    have hm := hsub m (List.mem_cons_self m rest)
    have hsubr : ∀ x ∈ rest, (x.mpath, x.vfsId) ∈ entries ∧ x.count = numComponents x.mpath :=
      fun x hx => hsub x (List.mem_cons_of_mem m hx)
    by_cases hcond : pathStartsWith q m.mpath ∧ m.count > longest
    · have hdiff := diffPaths_of_startsWith hcond.1
      by_cases hnil : (⟨false, q.comps.drop m.mpath.comps.length⟩ : RPath) = ⟨false, []⟩
      · have hexact : m.mpath = q :=
          diffPaths_empty_imp_eq hcond.1 (by rw [hdiff, hnil])
        have hres : resolveGo q (m :: rest) best longest = some (dotPath, m.vfsId) := by
          simp only [resolveGo, if_pos hcond, hdiff, if_pos hnil]
        rw [hres]
        refine ⟨m.mpath, hm.1, hcond.1, by omega, ?_⟩
        intro x hx hswx
        have hxc := hsub x hx
        rw [hxc.2, hexact]
        exact startsWith_numComponents_le hswx
      · have hres : resolveGo q (m :: rest) best longest =
            resolveGo q rest (some (⟨false, q.comps.drop m.mpath.comps.length⟩, m.vfsId)) m.count := by
          simp only [resolveGo, if_pos hcond, hdiff, if_neg hnil]
        rw [hres]
        have hbest' : ∃ p, (p, m.vfsId) ∈ entries ∧ pathStartsWith q p ∧
            numComponents p = m.count := ⟨m.mpath, hm.1, hcond.1, hm.2.symm⟩
        have := ih (some (⟨false, q.comps.drop m.mpath.comps.length⟩, m.vfsId)) m.count hsubr hbest'
        revert this
        cases hgo : resolveGo q rest
            (some (⟨false, q.comps.drop m.mpath.comps.length⟩, m.vfsId)) m.count with
        | none => intro h; exact absurd h.1 (by simp)
        | some b =>
          obtain ⟨rel, vid⟩ := b
          intro h
          obtain ⟨p, hp, hsw, hge, hall⟩ := h
          refine ⟨p, hp, hsw, by omega, ?_⟩
          intro x hx hswx
          rcases List.mem_cons.mp hx with hxm | hxr
          · subst hxm; omega
          · exact hall x hxr hswx
    · have hres : resolveGo q (m :: rest) best longest = resolveGo q rest best longest := by
        simp only [resolveGo, if_neg hcond]
      rw [hres]
      have := ih best longest hsubr hbest
      revert this
      cases hgo : resolveGo q rest best longest with
      | none =>
        intro h
        refine ⟨h.1, ?_⟩
        intro x hx hswx
        rcases List.mem_cons.mp hx with hxm | hxr
        · subst hxm
          by_contra hlt
          exact hcond ⟨hswx, by omega⟩
        · exact h.2 x hxr hswx
      | some b =>
        obtain ⟨rel, vid⟩ := b
        intro h
        obtain ⟨p, hp, hsw, hge, hall⟩ := h
        refine ⟨p, hp, hsw, hge, ?_⟩
        intro x hx hswx
        rcases List.mem_cons.mp hx with hxm | hxr
        · subst hxm
          by_contra hlt
          exact hcond ⟨hswx, by omega⟩
        · exact hall x hxr hswx

theorem resolveGo_exact (q : RPath) (vid : Nat) :
    ∀ (ms : List Mount) (best : Option (RPath × Nat)) (longest : Nat),
    (∀ m ∈ ms, m.count = numComponents m.mpath ∧ (m.mpath = q → m.vfsId = vid)) →
    (⟨q, numComponents q, vid⟩ : Mount) ∈ ms →
    longest < numComponents q →
    resolveGo q ms best longest = some (dotPath, vid) := by
  intro ms
  induction ms with
  | nil => intro _ _ _ hmem _; simp at hmem
  | cons m rest ih =>
    intro best longest hsub hmem hlong
    have hm := hsub m (List.mem_cons_self m rest)
    have hsubr : ∀ x ∈ rest, x.count = numComponents x.mpath ∧ (x.mpath = q → x.vfsId = vid) :=
      fun x hx => hsub x (List.mem_cons_of_mem m hx)
    by_cases heq : m.mpath = q
    · have hcount : m.count = numComponents q := by rw [hm.1, heq]
      have hvid : m.vfsId = vid := hm.2 heq
      have hcond : pathStartsWith q m.mpath ∧ m.count > longest := by
        constructor
        · rw [heq]; exact pathStartsWith_refl q
        · omega
      have hdiff := diffPaths_of_startsWith hcond.1
      have hnil : (⟨false, q.comps.drop m.mpath.comps.length⟩ : RPath) = ⟨false, []⟩ := by
        rw [heq]
        simp
      simp only [resolveGo, if_pos hcond, hdiff, if_pos hnil, hvid]
    · have hmemr : (⟨q, numComponents q, vid⟩ : Mount) ∈ rest := by
        rcases List.mem_cons.mp hmem with h | h
        · exact absurd (congrArg Mount.mpath h).symm heq
        · exact h
      by_cases hcond : pathStartsWith q m.mpath ∧ m.count > longest
      · have hdiff := diffPaths_of_startsWith hcond.1
        have hnil : ¬((⟨false, q.comps.drop m.mpath.comps.length⟩ : RPath) = ⟨false, []⟩) := by
          intro hcontra
          exact heq (diffPaths_empty_imp_eq hcond.1 (by rw [hdiff, hcontra]))
        have hlt : m.count < numComponents q := by
          have hle := startsWith_numComponents_le hcond.1
          rcases Nat.lt_or_ge (numComponents m.mpath) (numComponents q) with h | h
          · omega
          · exfalso
            apply heq
            apply startsWith_eq_of_comps_le hcond.1
            have hflag := hcond.1.1
            unfold numComponents at h
            rw [hflag] at h
            omega
        simp only [resolveGo, if_pos hcond, hdiff, if_neg hnil]
        exact ih _ m.count hsubr hmemr hlt
      · simp only [resolveGo, if_neg hcond]
        exact ih best longest hsubr hmemr hlong

/-- Claim C2: for a `VfsSet` built from mounts with pairwise-distinct
absolute prefixes and an absolute query `q`, `resolve_path q` is `none`
exactly when no mount prefix is a component-wise prefix of `q`; any returned
match belongs to a mount whose prefix `q` starts with and whose component
count is greatest among all matching prefixes; and when `q` equals a mount
prefix exactly the returned relative path is `"."` with that mount's
backend. -/
theorem resolve_path_longest_match (entries : List (RPath × Nat)) (q : RPath)
    (hnd : (entries.map Prod.fst).Nodup)
    (habs : ∀ p ∈ entries.map Prod.fst, p.absolute = true)
    (hq : q.absolute = true) :
    (resolvePath (mkVfsSet entries) q = none ↔
      ∀ p ∈ entries.map Prod.fst, ¬ pathStartsWith q p)
    ∧ (∀ rel vid, resolvePath (mkVfsSet entries) q = some (rel, vid) →
        ∃ p, (p, vid) ∈ entries ∧ pathStartsWith q p ∧
          ∀ p' ∈ entries.map Prod.fst, pathStartsWith q p' →
            numComponents p' ≤ numComponents p)
    ∧ (∀ vid, (q, vid) ∈ entries → resolvePath (mkVfsSet entries) q = some (dotPath, vid)) := by
  have hsub : ∀ m ∈ mkVfsSet entries,
      (m.mpath, m.vfsId) ∈ entries ∧ m.count = numComponents m.mpath := by
    intro m hm
    unfold mkVfsSet at hm
    obtain ⟨e, he, hme⟩ := List.mem_map.mp hm
    constructor
    · rw [← hme]; exact he
    · rw [← hme]
  have hmain := resolveGo_spec q entries (mkVfsSet entries) none 0 hsub rfl
  refine ⟨?_, ?_, ?_⟩
  · constructor
    · intro hnone p hp hsw
      rw [resolvePath] at hnone
      rw [hnone] at hmain
      obtain ⟨e, he, hfst⟩ := List.mem_map.mp hp
      have hmm : (⟨e.1, numComponents e.1, e.2⟩ : Mount) ∈ mkVfsSet entries := by
        unfold mkVfsSet
        exact List.mem_map.mpr ⟨e, he, rfl⟩
      have := hmain.2 ⟨e.1, numComponents e.1, e.2⟩ hmm (by
        show pathStartsWith q e.1
        rw [hfst]
        exact hsw)
      have hpos : 0 < numComponents e.1 := by
        have := habs p hp
        rw [← hfst] at this
        simp [numComponents, this]
      simp at this
      omega
    · intro hnom
      rw [resolvePath]
      cases hgo : resolveGo q (mkVfsSet entries) none 0 with
      | none => rfl
      | some b =>
        obtain ⟨rel, vid⟩ := b
        rw [hgo] at hmain
        obtain ⟨p, hp, hsw, _, _⟩ := hmain
        exact absurd hsw (hnom p (List.mem_map.mpr ⟨(p, vid), hp, rfl⟩))
  · intro rel vid hres
    rw [resolvePath] at hres
    rw [hres] at hmain
    obtain ⟨p, hp, hsw, _, hall⟩ := hmain
    refine ⟨p, hp, hsw, ?_⟩
    intro p' hp' hsw'
    obtain ⟨e, he, hfst⟩ := List.mem_map.mp hp'
    have hmm : (⟨e.1, numComponents e.1, e.2⟩ : Mount) ∈ mkVfsSet entries := by
      unfold mkVfsSet
      exact List.mem_map.mpr ⟨e, he, rfl⟩
    have := hall ⟨e.1, numComponents e.1, e.2⟩ hmm (by
      show pathStartsWith q e.1
      rw [hfst]
      exact hsw')
    rw [← hfst]
    exact this
  · intro vid hqv
    rw [resolvePath]
    apply resolveGo_exact q vid (mkVfsSet entries) none 0
    · intro m hm
      refine ⟨(hsub m hm).2, ?_⟩
      intro hmq
      have hmem := (hsub m hm).1
      rw [hmq] at hmem
      have hinj := List.inj_on_of_nodup_map hnd
      exact congrArg Prod.snd (hinj hmem hqv rfl)
    · unfold mkVfsSet
      exact List.mem_map.mpr ⟨(q, vid), hqv, rfl⟩
    · simp [numComponents, hq]

/-- Witness for claim C2 at the spec's S5 mount layout `/` and `/data`:
querying the exact mount path `/data` yields the relative path `"."` and the
`/data` backend. -/
theorem resolve_path_longest_match_witness :
    resolvePath (mkVfsSet [(⟨true, []⟩, 0), (⟨true, ["data"]⟩, 1)])
      ⟨true, ["data"]⟩ = some (dotPath, 1) :=
  (resolve_path_longest_match [(⟨true, []⟩, 0), (⟨true, ["data"]⟩, 1)]
    ⟨true, ["data"]⟩ (by decide) (by decide) rfl).2.2 1 (by decide)

/-- The SFTP status codes used by the session handlers
(`russh_sftp::protocol::StatusCode`). -/
inductive StatusCode where
  | Ok
  | Eof
  | NoSuchFile
  | PermissionDenied
  | Failure
  | BadMessage
  | OpUnsupported
deriving DecidableEq, Repr

/-- The VFS error taxonomy of `src/vfs/error.rs`, restricted to the variants
the verified operations produce. -/
inductive VfsError where
  | FileNotFound
  | NotAFile
  | NotADirectory
  | WouldEscape
  | InvalidPath (p : RPath)
  | IoErr (msg : String)
deriving DecidableEq, Repr

/-- Lexical normalization of components as performed by
`path_absolutize::Absolutize` on an absolute path: `"."` disappears, `".."`
pops the previous component and is clamped at the root. The accumulator holds
the output in reverse. -/
def normStep (acc : List String) (c : String) : List String :=
  if c = "." then acc
  else if c = ".." then acc.tail
  else c :: acc

def normComps (cs : List String) : List String :=
  (cs.foldl normStep []).reverse

/-- `Path::absolutize_from(cwd)` for an absolute `cwd`: an absolute path is
normalized as is, a relative one is appended to `cwd` first. -/
def absolutizeFrom (cwd : RPath) (p : RPath) : RPath :=
  if p.absolute then ⟨true, normComps p.comps⟩
  else ⟨true, normComps (cwd.comps ++ p.comps)⟩

/-- Outcome of the two-path dispatch helper `path_match2`: either the shared
backend is invoked with the two mount-relative paths, or a status is returned
without touching any backend. -/
inductive Dispatch2 where
  | invoked (vfsId : Nat) (p1 p2 : RPath)
  | failed (code : StatusCode)
deriving DecidableEq, Repr

/-- `path_match2` from `src/sftp/sftp.rs`: absolutize both arguments against
the session cwd, resolve both through the `VfsSet`, and only invoke the
operation when both resolve and the two `Arc<VfsInstance>`s are
pointer-equal; distinct backends yield `Failure`, an unresolved path
`NoSuchFile`. -/
def path_match2 (set : List Mount) (cwd : RPath) (path1 path2 : RPath) : Dispatch2 :=
  let a1 := absolutizeFrom cwd path1
  let a2 := absolutizeFrom cwd path2
  match resolvePath set a1, resolvePath set a2 with
  | some (r1, v1), some (r2, v2) =>
      if v1 = v2 then Dispatch2.invoked v1 r1 r2 else Dispatch2.failed StatusCode.Failure
  | _, _ => Dispatch2.failed StatusCode.NoSuchFile

/-- Running a dispatched rename/symlink against a filesystem state: only an
`invoked` outcome applies the backend operation; every `failed` outcome
leaves the state untouched. -/
def dispatchEffect {σ : Type} (d : Dispatch2) (op : Nat → RPath → RPath → σ → σ) (s : σ) : σ :=
  match d with
  | Dispatch2.invoked v p1 p2 => op v p1 p2 s
  | Dispatch2.failed _ => s

/-- Claim C4: when both path arguments of a RENAME or SYMLINK request resolve
to mounts but to two distinct backend instances, `path_match2` returns
status `Failure`, the backend operation is never invoked, and any filesystem
state is left unchanged. -/
theorem cross_backend_rename_failure (set : List Mount) (cwd p1 p2 : RPath)
    {r1 r2 : RPath} {v1 v2 : Nat}
    (h1 : resolvePath set (absolutizeFrom cwd p1) = some (r1, v1))
    (h2 : resolvePath set (absolutizeFrom cwd p2) = some (r2, v2))
    (hne : v1 ≠ v2) :
    path_match2 set cwd p1 p2 = Dispatch2.failed StatusCode.Failure
    ∧ ∀ (σ : Type) (op : Nat → RPath → RPath → σ → σ) (s : σ),
        dispatchEffect (path_match2 set cwd p1 p2) op s = s := by
  have hres : path_match2 set cwd p1 p2 = Dispatch2.failed StatusCode.Failure := by
    unfold path_match2
    simp only []
    rw [h1, h2]
    simp [hne]
  exact ⟨hres, fun σ op s => by rw [hres]; rfl⟩

/-- Witness for claim C4 at the spec's S4 layout: mounts `/a` and `/b` on
distinct backends, renaming `/a/x` to `/b/x` fails without invoking a
backend. -/
theorem cross_backend_rename_failure_witness :
    path_match2 (mkVfsSet [(⟨true, ["a"]⟩, 0), (⟨true, ["b"]⟩, 1)]) ⟨true, []⟩
      ⟨true, ["a", "x"]⟩ ⟨true, ["b", "x"]⟩ = Dispatch2.failed StatusCode.Failure
    ∧ ∀ (σ : Type) (op : Nat → RPath → RPath → σ → σ) (s : σ),
        dispatchEffect (path_match2 (mkVfsSet [(⟨true, ["a"]⟩, 0), (⟨true, ["b"]⟩, 1)])
          ⟨true, []⟩ ⟨true, ["a", "x"]⟩ ⟨true, ["b", "x"]⟩) op s = s :=
  @cross_backend_rename_failure (mkVfsSet [(⟨true, ["a"]⟩, 0), (⟨true, ["b"]⟩, 1)])
    ⟨true, []⟩ ⟨true, ["a", "x"]⟩ ⟨true, ["b", "x"]⟩
    ⟨false, ["x"]⟩ ⟨false, ["x"]⟩ 0 1
    (by decide) (by decide) (by decide)

/-- `LocalDir::readlink` after the blocking read of the raw symlink
contents: an absolute target under the backend's host root path is rewritten
to its root-relative form via `diff_utf8_paths`, an absolute target outside
the root is `WouldEscape`, and relative contents are returned verbatim. The
source unwraps the diff, which cannot fail when `starts_with` holds; the
unreachable branch returns the contents unchanged. -/
def LocalDirReadlink (rootPath linkContents : RPath) : Except VfsError RPath :=
  if linkContents.absolute then
    if pathStartsWith linkContents rootPath then
      match diffPaths linkContents rootPath with
      | some rel => Except.ok rel
      | none => Except.ok linkContents
    else Except.error VfsError.WouldEscape
  else Except.ok linkContents

/-- Walking a component list from a directory `d` levels below the mount
root: a name descends, `"."` is neutral, `".."` ascends and yields `none`
when it would climb above the root. -/
def resolveDepth : Nat → List String → Option Nat
  | d, [] => some d
  | d, c :: rest =>
    if c = ".." then
      match d with
      | 0 => none
      | Nat.succ d2 => resolveDepth d2 rest
    else if c = "." then resolveDepth d rest
    else resolveDepth (d + 1) rest

/-- A returned symlink target denotes a location inside the mount root when
it is relative and walking it from the root never climbs above the root. -/
def staysWithinRoot (r : RPath) : Prop :=
  r.absolute = false ∧ (resolveDepth 0 r.comps).isSome = true

instance (r : RPath) : Decidable (staysWithinRoot r) := by
  unfold staysWithinRoot; infer_instance

theorem resolveDepth_isSome_of_no_parent (cs : List String) (hnp : ".." ∈ cs → False) :
    ∀ d : Nat, (resolveDepth d cs).isSome = true := by
  induction cs with
  | nil => intro d; rfl
  | cons c rest ih =>
    intro d
    have hc : ¬ c = ".." := fun h => hnp (by rw [h]; exact List.mem_cons_self _ _)
    have hrest : ".." ∈ rest → False := fun h => hnp (List.mem_cons_of_mem c h)
    by_cases hdot : c = "."
    · simp only [resolveDepth, if_neg hc, if_pos hdot]
      exact ih hrest d
    · simp only [resolveDepth, if_neg hc, if_neg hdot]
      exact ih hrest (d + 1)

/-- Counterexample to claim C1: a symlink at the top of the mount whose
contents are the relative path `"../etc"` is returned verbatim by
`readlink`, yet walking it from the mount root climbs above the root, so the
caller observes a path denoting a location outside the mount root. -/
theorem readlink_relative_escape_cex :
    LocalDirReadlink ⟨true, ["srv", "root"]⟩ ⟨false, ["..", "etc"]⟩ =
      Except.ok ⟨false, ["..", "etc"]⟩
    ∧ ¬ staysWithinRoot ⟨false, ["..", "etc"]⟩ :=
  ⟨rfl, by decide⟩

/-- Claim C1 (amended): `readlink` classifies absolute targets outside the
root as `WouldEscape`, rewrites absolute targets inside the root to their
root-relative form (appending it to the root reproduces the contents), and
returns relative targets verbatim; the returned path stays within the mount
root provided it is free of `".."` components — contents containing `".."`
can still denote locations outside the root. -/
theorem readlink_classification_amended (rootPath linkContents : RPath) :
    (linkContents.absolute = true → ¬ pathStartsWith linkContents rootPath →
      LocalDirReadlink rootPath linkContents = Except.error VfsError.WouldEscape)
    ∧ (linkContents.absolute = true → pathStartsWith linkContents rootPath →
      LocalDirReadlink rootPath linkContents =
        Except.ok ⟨false, linkContents.comps.drop rootPath.comps.length⟩
      ∧ rootPath.comps ++ linkContents.comps.drop rootPath.comps.length = linkContents.comps)
    ∧ (linkContents.absolute = false →
      LocalDirReadlink rootPath linkContents = Except.ok linkContents)
    ∧ (∀ r, LocalDirReadlink rootPath linkContents = Except.ok r →
        (".." ∈ r.comps → False) → staysWithinRoot r) := by
  refine ⟨?_, ?_, ?_, ?_⟩
  · intro habs hnsw
    unfold LocalDirReadlink
    rw [habs]
    simp [hnsw]
  · intro habs hsw
    have hdiff := diffPaths_of_startsWith hsw
    constructor
    · unfold LocalDirReadlink
      rw [habs]
      simp [hsw, hdiff]
    · obtain ⟨t, ht⟩ := hsw.2
      rw [← ht, List.drop_left]
  · intro habs
    unfold LocalDirReadlink
    rw [habs]
    simp
  · intro r hok hnp
    unfold LocalDirReadlink at hok
    by_cases habs : linkContents.absolute
    · rw [if_pos habs] at hok
      by_cases hsw : pathStartsWith linkContents rootPath
      · rw [if_pos hsw, diffPaths_of_startsWith hsw] at hok
        have hr : r = ⟨false, linkContents.comps.drop rootPath.comps.length⟩ :=
          (Except.ok.inj hok).symm
        subst hr
        exact ⟨rfl, resolveDepth_isSome_of_no_parent _ hnp 0⟩
      · rw [if_neg hsw] at hok
        exact absurd hok (by simp)
    · rw [if_neg habs] at hok
      have hr : r = linkContents := (Except.ok.inj hok).symm
      subst hr
      exact ⟨Bool.not_eq_true _ ▸ by simpa using habs,
        resolveDepth_isSome_of_no_parent _ hnp 0⟩

/-- Witness for claim C1 (amended) at the spec's S3 layout: host root
`/srv/root`, a symlink whose contents are `/srv/root/sub/file`; `readlink`
returns the root-relative `sub/file`, which re-appends to the contents and
stays within the root. -/
theorem readlink_classification_amended_witness :
    (LocalDirReadlink ⟨true, ["srv", "root"]⟩ ⟨true, ["srv", "root", "sub", "file"]⟩ =
        Except.ok ⟨false, ["sub", "file"]⟩
      ∧ ["srv", "root"] ++ ["sub", "file"] = ["srv", "root", "sub", "file"])
    ∧ staysWithinRoot ⟨false, ["sub", "file"]⟩ := by
  have h := readlink_classification_amended ⟨true, ["srv", "root"]⟩
    ⟨true, ["srv", "root", "sub", "file"]⟩
  refine ⟨h.2.1 rfl (by decide), ?_⟩
  exact h.2.2.2 ⟨false, ["sub", "file"]⟩ (h.2.1 rfl (by decide)).1 (by decide)

/-- `vfs::HandleType`: file and directory handles are distinguished. -/
inductive HandleType where
  | File
  | Dir
deriving DecidableEq, Repr

/-- `vfs::Handle`: a typed handle around the backend's internal string. -/
structure HandleM where
  handleTy : HandleType
  vfsHandle : String
deriving DecidableEq, Repr

/-- `LocalDir.open_files` as an association list from internal handle
strings to the bytes of the underlying file (a byte is a `Nat` below 256). -/
def lookupFile (files : List (String × List Nat)) (k : String) : Option (List Nat) :=
  match files with
  | [] => none
  | (k2, v) :: rest => if k2 = k then some v else lookupFile rest k

/-- `LocalDir::read(handle, offset, len)`: only file handles are accepted
(`NotAFile` otherwise), a missing entry in `open_files` is `FileNotFound`;
otherwise the file is seeked to `offset` and `take(len).read_to_end` yields
`min len (size - offset)` bytes, with `Ok(None)` exactly when zero bytes were
read while `len != 0`. -/
def LocalDirRead (files : List (String × List Nat)) (h : HandleM) (offset len : Nat) :
    Except VfsError (Option (List Nat)) :=
  if h.handleTy = HandleType.File then
    match lookupFile files h.vfsHandle with
    | none => Except.error VfsError.FileNotFound
    | some data =>
      let buf := (data.drop offset).take len
      if buf.length = 0 ∧ len ≠ 0 then Except.ok none else Except.ok (some buf)
  else Except.error VfsError.NotAFile

/-- Claim C5: for an open file handle, `read` returns `Some(bytes)` with
`bytes.len() ≤ len` whenever at least one byte is available at `offset` or
`len = 0`, and returns `None` exactly when `len > 0` and `offset` is at or
past end-of-file. -/
theorem local_read_spec (files : List (String × List Nat)) (h : HandleM)
    (offset len : Nat) (data : List Nat)
    (hty : h.handleTy = HandleType.File)
    (hfile : lookupFile files h.vfsHandle = some data) :
    ((offset < data.length ∨ len = 0) →
      ∃ bytes, LocalDirRead files h offset len = Except.ok (some bytes) ∧ bytes.length ≤ len)
    ∧ (LocalDirRead files h offset len = Except.ok none ↔ 0 < len ∧ data.length ≤ offset) := by
  have hbuf : ((data.drop offset).take len).length = min len (data.length - offset) := by
    simp [List.length_take, List.length_drop]
  have hred : LocalDirRead files h offset len =
      (if ((data.drop offset).take len).length = 0 ∧ len ≠ 0 then Except.ok none
       else Except.ok (some ((data.drop offset).take len))) := by
    unfold LocalDirRead
    rw [if_pos hty, hfile]
  constructor
  · intro havail
    refine ⟨(data.drop offset).take len, ?_, ?_⟩
    · rw [hred, if_neg]
      intro hcontra
      rcases havail with hlt | hzero
      · rw [hbuf] at hcontra
        omega
      · exact hcontra.2 hzero
    · rw [hbuf]
      omega
  · rw [hred]
    constructor
    · intro hnone
      by_cases hcond : ((data.drop offset).take len).length = 0 ∧ len ≠ 0
      · rw [hbuf] at hcond
        omega
      · rw [if_neg hcond] at hnone
        exact absurd hnone (by simp)
    · intro hcond
      rw [if_pos (by rw [hbuf]; omega)]

/-- Witness for claim C5 at the spec's S1 scenario: the file `"hi"` read at
offset 0 with len 64 yields both bytes; a read at offset 2 yields EOF. -/
theorem local_read_spec_witness :
    (∃ bytes, LocalDirRead [("h1", [104, 105])] ⟨HandleType.File, "h1"⟩ 0 64 =
        Except.ok (some bytes) ∧ bytes.length ≤ 64)
    ∧ (LocalDirRead [("h1", [104, 105])] ⟨HandleType.File, "h1"⟩ 2 64 = Except.ok none ↔
        0 < 64 ∧ ([104, 105] : List Nat).length ≤ 2) :=
  ⟨(local_read_spec [("h1", [104, 105])] ⟨HandleType.File, "h1"⟩ 0 64 [104, 105]
      rfl rfl).1 (Or.inl (by decide)),
   (local_read_spec [("h1", [104, 105])] ⟨HandleType.File, "h1"⟩ 2 64 [104, 105]
      rfl rfl).2⟩

/-- One `READDIR` request of `SftpSession::readdir`, after `handle_match` has
resolved the wire handle: a handle already in `readdir_performed` yields
status `Eof`; otherwise the backend listing is fetched, the handle is
inserted into the drained set, and the full listing (each entry as a
name/attrs pair) is returned in a single response; a failing listing yields
`Failure` and does not mark the handle. -/
def readdirStep (drained : List HandleM)
    (listing : HandleM → Except VfsError (List (String × Nat))) (h : HandleM) :
    Except StatusCode (List (String × Nat)) × List HandleM :=
  if h ∈ drained then (Except.error StatusCode.Eof, drained)
  else
    match listing h with
    | Except.ok es => (Except.ok es, h :: drained)
    | Except.error _ => (Except.error StatusCode.Failure, drained)

/-- A sequence of `READDIR` requests on (possibly several) handles within a
session, threading the `readdir_performed` set; returns the per-request
responses paired with the handle they were issued on. -/
def runReaddirs (listing : HandleM → Except VfsError (List (String × Nat))) :
    List HandleM → List HandleM → List (HandleM × Except StatusCode (List (String × Nat)))
  | _, [] => []
  | drained, h :: hs =>
    let step := readdirStep drained listing h
    (h, step.1) :: runReaddirs listing step.2 hs

theorem runReaddirs_drained (listing : HandleM → Except VfsError (List (String × Nat)))
    (h : HandleM) :
    ∀ (hs : List HandleM) (drained : List HandleM), h ∈ drained →
      ((runReaddirs listing drained hs).filter (fun x => x.1 = h)).map Prod.snd =
        List.replicate (hs.count h) (Except.error StatusCode.Eof) := by
  intro hs
  induction hs with
  | nil => intro drained _; simp [runReaddirs]
  | cons h2 rest ih =>
    intro drained hmem
    by_cases heq : h2 = h
    · subst heq
      have hstep : readdirStep drained listing h2 = (Except.error StatusCode.Eof, drained) := by
        unfold readdirStep
        rw [if_pos hmem]
      simp only [runReaddirs, hstep]
      simp [List.filter_cons, List.count_cons, ih drained hmem, List.replicate_succ]
    · have hmem2 : h ∈ (readdirStep drained listing h2).2 := by
        unfold readdirStep
        by_cases hm : h2 ∈ drained
        · rw [if_pos hm]; exact hmem
        · rw [if_neg hm]
          cases hl : listing h2 with
          | ok es => exact List.mem_cons_of_mem _ hmem
          | error e => exact hmem
      simp only [runReaddirs, List.filter_cons]
      have hdec : (decide ((h2, (readdirStep drained listing h2).1).1 = h)) = false := by
        simp [heq]
      rw [hdec]
      simp only [Bool.false_eq_true, if_false]
      rw [ih _ hmem2]
      simp [List.count_cons, heq]

/-- Claim C3: within a session, for a directory handle not yet drained whose
backend listing succeeds, the responses to the `READDIR` requests issued on
that handle (in a request sequence containing no `CLOSE`) are: the full
listing in one response for the first request, and status `Eof` for every
subsequent one. -/
theorem readdir_first_full_then_eof
    (listing : HandleM → Except VfsError (List (String × Nat)))
    (h : HandleM) (es : List (String × Nat)) (hs : List HandleM)
    (drained : List HandleM)
    (hnew : h ∉ drained) (hok : listing h = Except.ok es) (hissued : h ∈ hs) :
    ((runReaddirs listing drained hs).filter (fun x => x.1 = h)).map Prod.snd =
      Except.ok es :: List.replicate (hs.count h - 1) (Except.error StatusCode.Eof) := by
  induction hs generalizing drained with
  | nil => simp at hissued
  | cons h2 rest ih =>
    by_cases heq : h2 = h
    · subst heq
      have hstep : readdirStep drained listing h2 = (Except.ok es, h2 :: drained) := by
        unfold readdirStep
        rw [if_neg hnew, hok]
      simp only [runReaddirs, hstep]
      simp [List.filter_cons, List.count_cons,
        runReaddirs_drained listing h2 rest (h2 :: drained) (List.mem_cons_self _ _)]
    · have hrest : h ∈ rest := by
        rcases List.mem_cons.mp hissued with he | he
        · exact absurd he.symm heq
        · exact he
      have hnew2 : h ∉ (readdirStep drained listing h2).2 := by
        unfold readdirStep
        by_cases hm : h2 ∈ drained
        · rw [if_pos hm]; exact hnew
        · rw [if_neg hm]
          cases hl : listing h2 with
          | ok es2 =>
            intro hcontra
            rcases List.mem_cons.mp hcontra with hc | hc
            · exact heq hc.symm
            · exact hnew hc
          | error e => exact hnew
      simp only [runReaddirs, List.filter_cons]
      have hdec : (decide ((h2, (readdirStep drained listing h2).1).1 = h)) = false := by
        simp [heq]
      rw [hdec]
      simp only [Bool.false_eq_true, if_false]
      rw [ih _ hnew2 hrest]
      simp [List.count_cons, heq]

/-- Witness for claim C3: two `READDIR` requests on a fresh handle with a
one-entry listing give the listing and then `Eof`. -/
theorem readdir_first_full_then_eof_witness :
    ((runReaddirs (fun _ => Except.ok [("hello.txt", 7)])
        [] [⟨HandleType.Dir, "d1"⟩, ⟨HandleType.Dir, "d1"⟩]).filter
          (fun x => x.1 = ⟨HandleType.Dir, "d1"⟩)).map Prod.snd =
      Except.ok [("hello.txt", 7)] ::
        List.replicate 1 (Except.error StatusCode.Eof) := by
  have h := readdir_first_full_then_eof (fun _ => Except.ok [("hello.txt", 7)])
    ⟨HandleType.Dir, "d1"⟩ [("hello.txt", 7)]
    [⟨HandleType.Dir, "d1"⟩, ⟨HandleType.Dir, "d1"⟩] []
    (by simp) rfl (by simp)
  simpa using h

/-- One argument of the `md5sum`/`sha1sum` exec handler: `raw` is the
original argument byte-string as displayed in the output line, `parsed` the
path `Path::new(argument)` denotes. -/
structure HashArg where
  raw : String
  parsed : RPath
deriving DecidableEq, Repr

/-- Lower-case hex digit of a value below 16, as produced by the `{:x}`
format of the digest. -/
def hexDigit (n : Nat) : Char :=
  if n < 10 then Char.ofNat (48 + n) else Char.ofNat (87 + n)

def hexByte (b : Nat) : String :=
  String.mk [hexDigit (b / 16 % 16), hexDigit (b % 16)]

def hexString (bs : List Nat) : String :=
  String.join (bs.map hexByte)

/-- The output line `format!("{digest:x}  {}\n", path.display())` for one
successful argument. -/
def hashLine (digest : List Nat) (arg : HashArg) : String :=
  hexString digest ++ "  " ++ arg.raw ++ "\n"

/-- The loop shared by `exec_md5sum` and `exec_sha1sum`: each argument is
absolutized against the cwd and resolved through the `VfsSet`; an argument
matching no mount is skipped silently; for a matching argument the backend
hash runs, and — per the source's `?` operator on `vfs.md5sum(...)`/
`vfs.sha1sum(...)` — a hashing error returns immediately from the whole
handler. Output lines are accumulated in order. -/
def execHash (set : List Mount) (hashFn : Nat → RPath → Except VfsError (List Nat))
    (cwd : RPath) : List HashArg → Except VfsError (List String)
  | [] => Except.ok []
  | arg :: rest =>
    match resolvePath set (absolutizeFrom cwd arg.parsed) with
    | some (rel, vid) =>
      match hashFn vid rel with
      | Except.error e => Except.error e
      | Except.ok digest =>
        (execHash set hashFn cwd rest).map (fun lines => hashLine digest arg :: lines)
    | none => execHash set hashFn cwd rest

/-- A two-mount, two-argument scene for the C6 counterexample: hashing the
first argument fails, the second would succeed. -/
def cexSet : List Mount := mkVfsSet [(⟨true, []⟩, 0)]

def cexHashFn : Nat → RPath → Except VfsError (List Nat) := fun _ p =>
  if p = ⟨false, ["bad"]⟩ then Except.error (VfsError.IoErr "boom") else Except.ok [171]

/-- Counterexample to claim C6: with arguments `/bad` (resolves, hashing
fails) and `/good` (resolves, hashing succeeds), the handler aborts with the
error of the first argument and emits no line at all — in particular none
for the remaining argument, which on its own would produce its line. -/
theorem hash_exec_abort_cex :
    execHash cexSet cexHashFn ⟨true, []⟩
        [⟨"/bad", ⟨true, ["bad"]⟩⟩, ⟨"/good", ⟨true, ["good"]⟩⟩] =
      Except.error (VfsError.IoErr "boom")
    ∧ execHash cexSet cexHashFn ⟨true, []⟩ [⟨"/good", ⟨true, ["good"]⟩⟩] =
      Except.ok [hashLine [171] ⟨"/good", ⟨true, ["good"]⟩⟩] :=
  ⟨rfl, rfl⟩

/-- Claim C6 (amended): an argument that resolves to no mount produces no
output line and processing continues with the remaining arguments, and every
successfully hashed argument emits exactly one line `"<hex>  <arg>\n"`; but
an argument whose hashing fails aborts the handler — the error propagates
and no line is produced for it or for any remaining argument. -/
theorem hash_exec_characterization (set : List Mount)
    (hashFn : Nat → RPath → Except VfsError (List Nat)) (cwd : RPath) :
    (∀ args : List HashArg,
      (∀ arg ∈ args, ∀ rel vid,
          resolvePath set (absolutizeFrom cwd arg.parsed) = some (rel, vid) →
          (hashFn vid rel).isOk) →
      execHash set hashFn cwd args = Except.ok (args.filterMap (fun arg =>
        match resolvePath set (absolutizeFrom cwd arg.parsed) with
        | some (rel, vid) =>
          match hashFn vid rel with
          | Except.ok digest => some (hashLine digest arg)
          | Except.error _ => none
        | none => none)))
    ∧ (∀ (pre post : List HashArg) (bad : HashArg) (rel : RPath) (vid : Nat) (e : VfsError),
        (∀ arg ∈ pre, ∀ rel2 vid2,
            resolvePath set (absolutizeFrom cwd arg.parsed) = some (rel2, vid2) →
            (hashFn vid2 rel2).isOk) →
        resolvePath set (absolutizeFrom cwd bad.parsed) = some (rel, vid) →
        hashFn vid rel = Except.error e →
        execHash set hashFn cwd (pre ++ bad :: post) = Except.error e) := by
  constructor
  · intro args
    induction args with
    | nil => intro _; rfl
    | cons arg rest ih =>
      intro hall
      have hrest := ih (fun a ha => hall a (List.mem_cons_of_mem arg ha))
      cases hres : resolvePath set (absolutizeFrom cwd arg.parsed) with
      | none =>
        simp only [execHash, hres, List.filterMap_cons]
        exact hrest
      | some p =>
        obtain ⟨rel, vid⟩ := p
        have hok := hall arg (List.mem_cons_self _ _) rel vid hres
        cases hh : hashFn vid rel with
        | error e => rw [hh] at hok; exact absurd hok (by simp [Except.isOk, Except.toBool])
        | ok digest =>
          simp only [execHash, hres, hh, List.filterMap_cons]
          rw [hrest]
          rfl
  · intro pre post bad rel vid e hpre hbadres hbadhash
    induction pre with
    | nil =>
      simp only [List.nil_append, execHash, hbadres, hbadhash]
    | cons arg rest ih =>
      have hrest := ih (fun a ha => hpre a (List.mem_cons_of_mem arg ha))
      cases hres : resolvePath set (absolutizeFrom cwd arg.parsed) with
      | none =>
        simp only [List.cons_append, execHash, hres]
        exact hrest
      | some p =>
        obtain ⟨rel2, vid2⟩ := p
        have hok := hpre arg (List.mem_cons_self _ _) rel2 vid2 hres
        cases hh : hashFn vid2 rel2 with
        | error e2 => rw [hh] at hok; exact absurd hok (by simp [Except.isOk, Except.toBool])
        | ok digest =>
          simp only [List.cons_append, execHash, hres, hh]
          rw [List.append_eq, hrest]
          rfl

/-- Witness for claim C6 (amended): in the counterexample scene, the
skip-and-continue clause at a well-behaved argument list with one
unresolvable argument, and the abort clause at the failing argument. -/
theorem hash_exec_characterization_witness :
    execHash cexSet cexHashFn ⟨true, []⟩
        [⟨"/good", ⟨true, ["good"]⟩⟩] =
      Except.ok ([(⟨"/good", ⟨true, ["good"]⟩⟩ : HashArg)].filterMap (fun arg =>
        match resolvePath cexSet (absolutizeFrom ⟨true, []⟩ arg.parsed) with
        | some (rel, vid) =>
          match cexHashFn vid rel with
          | Except.ok digest => some (hashLine digest arg)
          | Except.error _ => none
        | none => none))
    ∧ execHash cexSet cexHashFn ⟨true, []⟩
        ([] ++ (⟨"/bad", ⟨true, ["bad"]⟩⟩ : HashArg) :: [⟨"/good", ⟨true, ["good"]⟩⟩]) =
      Except.error (VfsError.IoErr "boom") :=
  ⟨(hash_exec_characterization cexSet cexHashFn ⟨true, []⟩).1
      [⟨"/good", ⟨true, ["good"]⟩⟩] (by
        intro arg ha rel vid hres
        simp only [List.mem_singleton] at ha
        subst ha
        have hcomp : resolvePath cexSet
            (absolutizeFrom ⟨true, []⟩ (⟨true, ["good"]⟩ : RPath)) =
            some (⟨false, ["good"]⟩, 0) := by decide
        rw [hcomp] at hres
        have hrel : rel = ⟨false, ["good"]⟩ := by
          have := (Prod.mk.injEq _ _ _ _).mp (Option.some.inj hres)
          exact this.1.symm
        subst hrel
        rfl),
   (hash_exec_characterization cexSet cexHashFn ⟨true, []⟩).2
      [] [⟨"/good", ⟨true, ["good"]⟩⟩] ⟨"/bad", ⟨true, ["bad"]⟩⟩
      ⟨false, ["bad"]⟩ 0 (VfsError.IoErr "boom") (by simp) (by decide) rfl⟩

/-- The capability symlink syscall `cap_std::fs_utf8::Dir::symlink(original,
link)` (same argument convention as `std::os::unix::fs::symlink`): it
creates a symlink at path `link` under the root whose stored contents are
`original`. -/
structure SymlinkSyscall where
  original : RPath
  linkLocation : RPath
deriving DecidableEq, Repr

/-- `LocalDir::symlink(path, target)` (`path` is the link to create,
`target` what it should point to): the source computes
`relative_target = diff_utf8_paths(target, path)` (failing with
`InvalidPath` when the diff is `None`) and then calls
`root_dir.symlink(path, relative_target)` — i.e. it passes `path` as the
`original` (contents) argument and `relative_target` as the `link`
(location) argument of the capability API. -/
def LocalDirSymlink (path target : RPath) : Except VfsError SymlinkSyscall :=
  match diffPaths target path with
  | some rel => Except.ok ⟨path, rel⟩
  | none => Except.error (VfsError.InvalidPath target)

/-- The directory containing a path: all components but the last. -/
def parentDir (p : RPath) : RPath := ⟨p.absolute, p.comps.dropLast⟩

/-- Resolving relative symlink contents from the directory that contains the
link, the way the operating system does. -/
def resolveFromDir (dir contents : RPath) : RPath :=
  ⟨dir.absolute, normComps (dir.comps ++ contents.comps)⟩

/-- Claim C7 evaluated at a failing input (mount-relative link `a/b`,
caller target `/a/c` resolved to `a/c`): the syscall issued by the source
stores the link path `a/b` as the symlink contents at location `../c`. The
claim requires contents `c` — the target re-expressed relative to the link's
directory `a` — stored at `a/b`, so that resolving the stored contents from
`a` returns `a/c`; the code does neither: the stored contents differ from
the required ones and resolving them from the link's directory yields
`a/a/b`, not the original target. -/
theorem symlink_swapped_args :
    LocalDirSymlink ⟨false, ["a", "b"]⟩ ⟨false, ["a", "c"]⟩ =
      Except.ok ⟨⟨false, ["a", "b"]⟩, ⟨false, ["..", "c"]⟩⟩
    ∧ diffPaths ⟨false, ["a", "c"]⟩ (parentDir ⟨false, ["a", "b"]⟩) =
      some ⟨false, ["c"]⟩
    ∧ (⟨false, ["a", "b"]⟩ : RPath) ≠ ⟨false, ["c"]⟩
    ∧ resolveFromDir (parentDir ⟨false, ["a", "b"]⟩) ⟨false, ["a", "b"]⟩ ≠
      ⟨false, ["a", "c"]⟩ :=
  ⟨rfl, by decide, by decide, by decide⟩

/-- The SSH authentication methods relevant here
(`russh::MethodKind`). -/
inductive MethodKind where
  | Password
  | PublicKey
deriving DecidableEq, Repr

/-- The auth-client error type, restricted to what the verified paths
surface. -/
inductive AuthError where
  | RedisConnectionTimeout
  | LdapPoolClosed
  | Other (msg : String)
deriving DecidableEq, Repr

/-- An `Auth` decision of `russh::server::Auth`: accept, or reject carrying
the methods the client may still proceed with. -/
inductive AuthDecision where
  | Accept
  | Reject (proceedWith : List MethodKind)
deriving DecidableEq, Repr

/-- A computation that either returns or panics — used to model Rust
control flow that can reach `todo!()`. -/
inductive POr (α : Type) where
  | panicked
  | ret (a : α)
deriving DecidableEq, Repr

/-- `AuthClient::authenticate_password` from `src/auth/client.rs`: its body
is `todo!()`, so every call panics before producing a value. -/
def authenticatePassword (_username _password : String) : POr (Except AuthError Bool) :=
  POr.panicked

/-- `SshSession::auth_password`: `if self.config.allow_password &&
self.auth_client.authenticate_password(user, pw).await? { Accept } else {
remove Password; Reject }`. The `&&` short-circuits, so with password auth
disabled the client closure is never forced; with it enabled the closure
runs — and a panic or `Err` inside it propagates. Returns the decision and
the updated method set. -/
def authPassword (allowPassword : Bool) (methods : List MethodKind)
    (client : Unit → POr (Except AuthError Bool)) :
    POr (Except AuthError (AuthDecision × List MethodKind)) :=
  if allowPassword then
    match client () with
    | POr.panicked => POr.panicked
    | POr.ret (Except.error e) => POr.ret (Except.error e)
    | POr.ret (Except.ok true) => POr.ret (Except.ok (AuthDecision.Accept, methods))
    | POr.ret (Except.ok false) =>
      POr.ret (Except.ok (AuthDecision.Reject (methods.filter (fun m => m ≠ MethodKind.Password)),
        methods.filter (fun m => m ≠ MethodKind.Password)))
  else
    POr.ret (Except.ok (AuthDecision.Reject (methods.filter (fun m => m ≠ MethodKind.Password)),
      methods.filter (fun m => m ≠ MethodKind.Password)))

/-- Claim C9 evaluated on the code: with password auth disabled the call
refuses, removes `Password` from the offered methods, and never consults the
auth client (the result is the same for every client); but with password
auth enabled the call forces `authenticate_password`, whose body is
`todo!()`, and panics instead of returning an Accept or Reject decision. -/
theorem auth_password_disabled_ok_enabled_panics :
    (∀ (methods : List MethodKind) (c1 c2 : Unit → POr (Except AuthError Bool)),
      authPassword false methods c1 = authPassword false methods c2)
    ∧ (∀ (methods : List MethodKind) (c : Unit → POr (Except AuthError Bool)),
      authPassword false methods c =
        POr.ret (Except.ok
          (AuthDecision.Reject (methods.filter (fun m => m ≠ MethodKind.Password)),
           methods.filter (fun m => m ≠ MethodKind.Password))))
    ∧ authPassword true [MethodKind.Password, MethodKind.PublicKey]
        (fun _ => authenticatePassword "alice" "hunter2") = POr.panicked :=
  ⟨fun _ _ _ => rfl, fun _ _ => rfl, rfl⟩

/-- Rust `&str` slicing `&s[i..]` over UTF-8 bytes: it panics when `i` is
larger than the byte length or falls inside a multi-byte character (a
continuation byte `0x80..=0xBF` at position `i`). -/
def sliceFrom (bytes : List Nat) (i : Nat) : POr (List Nat) :=
  if i = bytes.length then POr.ret []
  else if i < bytes.length then
    if 128 ≤ bytes.getD i 0 ∧ bytes.getD i 0 < 192 then POr.panicked
    else POr.ret (bytes.drop i)
  else POr.panicked

/-- `vfs::Handle::from_str` over the raw handle bytes: a string starting
with `"dir"` is sliced from byte 4, one starting with `"file"` from byte 5,
anything else is the `InvalidHandle` error (which `handle_match` answers
with `BadMessage`). The slices can panic. `"dir"` is `[100, 105, 114]`,
`"file"` is `[102, 105, 108, 101]`. -/
def handleFromStr (s : List Nat) : POr (Except Unit (HandleType × List Nat)) :=
  if [100, 105, 114] <+: s then
    match sliceFrom s 4 with
    | POr.panicked => POr.panicked
    | POr.ret body => POr.ret (Except.ok (HandleType.Dir, body))
  else if [102, 105, 108, 101] <+: s then
    match sliceFrom s 5 with
    | POr.panicked => POr.panicked
    | POr.ret body => POr.ret (Except.ok (HandleType.File, body))
  else POr.ret (Except.error ())

/-- Claim C10 evaluated on the code: handle parsing is not total. The
client-controlled three-byte handle string `"dir"` passes the
`starts_with("dir")` test and then slices `&handle[4..]` out of bounds,
panicking instead of returning `Ok` or `Err`; likewise `"file"` with
`&handle[5..]`. A string that matches neither test does return the
`InvalidHandle` error that the dispatcher maps to `BadMessage`. -/
theorem handle_from_str_dir_crash :
    handleFromStr [100, 105, 114] = POr.panicked
    ∧ handleFromStr [102, 105, 108, 101] = POr.panicked
    ∧ handleFromStr [120] = POr.ret (Except.error ())
    ∧ handleFromStr [100, 105, 114, 95, 98] =
      POr.ret (Except.ok (HandleType.Dir, [98])) :=
  ⟨rfl, rfl, rfl, rfl⟩

/-- 32-bit right rotation on a value below 2^32. -/
def rotr32 (n x : Nat) : Nat :=
  ((x >>> n) ||| (x <<< (32 - n))) % 4294967296

def shaCh (x y z : Nat) : Nat := (x &&& y) ^^^ ((x ^^^ 4294967295) &&& z)

def shaMaj (x y z : Nat) : Nat := (x &&& y) ^^^ (x &&& z) ^^^ (y &&& z)

def bigSigma0 (x : Nat) : Nat := rotr32 2 x ^^^ rotr32 13 x ^^^ rotr32 22 x

def bigSigma1 (x : Nat) : Nat := rotr32 6 x ^^^ rotr32 11 x ^^^ rotr32 25 x

def smallSigma0 (x : Nat) : Nat := rotr32 7 x ^^^ rotr32 18 x ^^^ (x >>> 3)

def smallSigma1 (x : Nat) : Nat := rotr32 17 x ^^^ rotr32 19 x ^^^ (x >>> 10)

/-- The SHA-256 round constants (decimal). -/
def shaK : List Nat :=
  [1116352408, 1899447441, 3049323471, 3921009573, 961987163,
   1508970993, 2453635748, 2870763221, 3624381080, 310598401,
   607225278, 1426881987, 1925078388, 2162078206, 2614888103,
   3248222580, 3835390401, 4022224774, 264347078, 604807628,
   770255983, 1249150122, 1555081692, 1996064986, 2554220882,
   2821834349, 2952996808, 3210313671, 3336571891, 3584528711,
   113926993, 338241895, 666307205, 773529912, 1294757372,
   1396182291, 1695183700, 1986661051, 2177026350, 2456956037,
   2730485921, 2820302411, 3259730800, 3345764771, 3516065817,
   3600352804, 4094571909, 275423344, 430227734, 506948616,
   659060556, 883997877, 958139571, 1322822218, 1537002063,
   1747873779, 1955562222, 2024104815, 2227730452, 2361852424,
   2428436474, 2756734187, 3204031479, 3329325298]

/-- The SHA-256 initial hash value (decimal). -/
def shaH0 : List Nat :=
  [1779033703, 3144134277, 1013904242, 2773480762,
   1359893119, 2600822924, 528734635, 1541459225]

/-- Big-endian packing of 4 bytes into 32-bit words. -/
def toWords : List Nat → List Nat
  | a :: b :: c :: d :: rest => (a * 16777216 + b * 65536 + c * 256 + d) :: toWords rest
  | _ => []

/-- Message-schedule extension by `fuel` additional words; `rw` holds the
words produced so far, most recent first, and the result is in order. -/
def scheduleGo : Nat → List Nat → List Nat
  | 0, rw => rw.reverse
  | fuel + 1, rw =>
    let w2 := rw.getD 1 0
    let w7 := rw.getD 6 0
    let w15 := rw.getD 14 0
    let w16 := rw.getD 15 0
    scheduleGo fuel (((smallSigma1 w2 + w7 + smallSigma0 w15 + w16) % 4294967296) :: rw)

/-- The eight 32-bit working variables of the compression function. -/
structure Sha8 where
  a : Nat
  b : Nat
  c : Nat
  d : Nat
  e : Nat
  f : Nat
  g : Nat
  h : Nat
deriving DecidableEq, Repr

def shaRound (st : Sha8) (kw : Nat × Nat) : Sha8 :=
  let t1 := (st.h + bigSigma1 st.e + shaCh st.e st.f st.g + kw.1 + kw.2) % 4294967296
  let t2 := (bigSigma0 st.a + shaMaj st.a st.b st.c) % 4294967296
  ⟨(t1 + t2) % 4294967296, st.a, st.b, st.c, (st.d + t1) % 4294967296, st.e, st.f, st.g⟩

/-- Compress one 64-byte block into the running hash values. -/
def processBlock (hs : List Nat) (block : List Nat) : List Nat :=
  let ws := scheduleGo 48 (toWords block).reverse
  let st0 : Sha8 := ⟨hs.getD 0 0, hs.getD 1 0, hs.getD 2 0, hs.getD 3 0,
    hs.getD 4 0, hs.getD 5 0, hs.getD 6 0, hs.getD 7 0⟩
  let stf := (shaK.zip ws).foldl shaRound st0
  [(st0.a + stf.a) % 4294967296, (st0.b + stf.b) % 4294967296,
   (st0.c + stf.c) % 4294967296, (st0.d + stf.d) % 4294967296,
   (st0.e + stf.e) % 4294967296, (st0.f + stf.f) % 4294967296,
   (st0.g + stf.g) % 4294967296, (st0.h + stf.h) % 4294967296]

/-- Big-endian 8-byte encoding of the bit length. -/
def lengthBytes64 (n : Nat) : List Nat :=
  [n >>> 56 % 256, n >>> 48 % 256, n >>> 40 % 256, n >>> 32 % 256,
   n >>> 24 % 256, n >>> 16 % 256, n >>> 8 % 256, n % 256]

/-- SHA-256 padding: `0x80`, zeros to 56 mod 64, then the bit length. -/
def sha256Pad (msg : List Nat) : List Nat :=
  msg ++ 128 :: List.replicate ((119 - msg.length % 64) % 64) 0 ++
    lengthBytes64 (msg.length * 8)

/-- Split into 64-byte blocks; `fuel` bounds the recursion (any value at
least the list length splits everything). -/
def chunks64 : Nat → List Nat → List (List Nat)
  | 0, _ => []
  | fuel + 1, l => if l.isEmpty then [] else l.take 64 :: chunks64 fuel (l.drop 64)

/-- Big-endian serialization of one 32-bit word. -/
def wordBytes (w : Nat) : List Nat :=
  [w >>> 24 % 256, w >>> 16 % 256, w >>> 8 % 256, w % 256]

/-- SHA-256 of a byte list, as computed by the `sha2` crate used in
`LocalDir::open`/`open_dir`. -/
def sha256 (msg : List Nat) : List Nat :=
  ((chunks64 (sha256Pad msg).length (sha256Pad msg)).foldl processBlock shaH0).map wordBytes
    |>.flatten

/-- The standard base64 alphabet of `base64ct::Base64` (the encoding the
source uses): characters 62 and 63 are `'+'` and `'/'`. -/
def b64CharStd (n : Nat) : Char :=
  if n < 26 then Char.ofNat (65 + n)
  else if n < 52 then Char.ofNat (97 + (n - 26))
  else if n < 62 then Char.ofNat (48 + (n - 52))
  else if n = 62 then Char.ofNat 43
  else Char.ofNat 47

/-- Modelled from the spec: the url-safe base64 alphabet the specification
claims for handle bodies — characters 62 and 63 are `'-'` and `'_'`. -/
def b64CharUrl (n : Nat) : Char :=
  if n < 26 then Char.ofNat (65 + n)
  else if n < 52 then Char.ofNat (97 + (n - 26))
  else if n < 62 then Char.ofNat (48 + (n - 52))
  else if n = 62 then Char.ofNat 45
  else Char.ofNat 95

/-- Padded base64 encoding over a given alphabet (`'='` is byte 61). -/
def b64Encode (tbl : Nat → Char) : List Nat → List Char
  | [] => []
  | [a] => [tbl (a / 4), tbl (a % 4 * 16), Char.ofNat 61, Char.ofNat 61]
  | [a, b] => [tbl (a / 4), tbl (a % 4 * 16 + b / 16), tbl (b % 16 * 4), Char.ofNat 61]
  | a :: b :: c :: rest =>
    tbl (a / 4) :: tbl (a % 4 * 16 + b / 16) :: tbl (b % 16 * 4 + c / 64) :: tbl (c % 64) ::
      b64Encode tbl rest

/-- UTF-8 bytes of an ASCII string (every character below 128 encodes as its
code point). -/
def asciiBytes (s : String) : List Nat := s.data.map Char.toNat

/-- The handle body computed in `LocalDir::open` and `LocalDir::open_dir`:
`Base64::encode_string` of the SHA-256 over the vfs root path, the opened
path, and the 32 random salt bytes. -/
def localDirHandleBody (vfsPath path : String) (salt : List Nat) : String :=
  String.mk (b64Encode b64CharStd (sha256 (asciiBytes vfsPath ++ asciiBytes path ++ salt)))

/-- `LocalDir::open` wraps the body in a file handle. -/
def LocalDirOpenHandle (vfsPath path : String) (salt : List Nat) : HandleM :=
  ⟨HandleType.File, localDirHandleBody vfsPath path salt⟩

/-- `LocalDir::open_dir` wraps the body in a directory handle. -/
def LocalDirOpenDirHandle (vfsPath path : String) (salt : List Nat) : HandleM :=
  ⟨HandleType.Dir, localDirHandleBody vfsPath path salt⟩

/-- The `Display` impl of `vfs::Handle`: `"file_<body>"` or
`"dir_<body>"`. -/
def HandleM.render (h : HandleM) : String :=
  match h.handleTy with
  | HandleType.File => "file_" ++ h.vfsHandle
  | HandleType.Dir => "dir_" ++ h.vfsHandle

/-- The concrete salt of the C8 counterexample. -/
def c8salt : List Nat :=
  [2, 3, 4, 5, 6, 7, 8, 9, 10, 11, 12, 13, 14, 15, 16, 17, 18, 19, 20, 21,
   22, 23, 24, 25, 26, 27, 28, 29, 30, 31, 32, 33]

/-- Counterexample to claim C8: opening path `a` on the mount rooted at `/`
with this salt produces a handle whose body (SHA-256 verified against an
independent implementation in the first conjunct) differs from the url-safe
base64 encoding of the digest — the source's `base64ct::Base64` is the
standard alphabet and here emits `'/'` (byte 47), which the url-safe
alphabet never contains. -/
theorem handle_body_not_urlsafe_cex :
    sha256 (asciiBytes ("/") ++ asciiBytes ("a") ++ c8salt) =
      [117, 33, 178, 233, 28, 153, 178, 84, 120, 231, 248, 184, 59, 127, 236, 132,
       141, 60, 253, 121, 239, 20, 68, 33, 79, 9, 61, 201, 189, 3, 85, 204]
    ∧ localDirHandleBody ("/") ("a") c8salt ≠
      String.mk (b64Encode b64CharUrl (sha256 (asciiBytes ("/") ++ asciiBytes ("a") ++ c8salt)))
    ∧ Char.ofNat 47 ∈ (localDirHandleBody ("/") ("a") c8salt).data := by
  refine ⟨by decide, by decide, by decide⟩

theorem b64Encode_length (tbl : Nat → Char) (n : Nat) :
    ∀ l : List Nat, l.length ≤ n → (b64Encode tbl l).length = 4 * ((l.length + 2) / 3) := by
  induction n with
  | zero =>
    intro l hl
    have hnil : l = [] := List.eq_nil_of_length_eq_zero (Nat.le_zero.mp hl)
    subst hnil
    simp [b64Encode]
  | succ n ih =>
    intro l hl
    match l with
    | [] => simp [b64Encode]
    | [a] => simp [b64Encode]
    | [a, b] => simp [b64Encode]
    | a :: b :: c :: rest =>
      have hr : rest.length ≤ n := by
        simp only [List.length_cons] at hl
        omega
      have hrec := ih rest hr
      simp only [b64Encode, List.length_cons, hrec]
      have h3 : rest.length + 1 + 1 + 1 + 2 = rest.length + 2 + 3 := by omega
      rw [h3, Nat.add_div_right _ (by norm_num)]
      generalize (rest.length + 2) / 3 = k
      omega

theorem foldl_processBlock_length (blocks : List (List Nat)) :
    ∀ hs : List Nat, hs.length = 8 → (blocks.foldl processBlock hs).length = 8 := by
  induction blocks with
  | nil => intro hs h; simpa using h
  | cons blk rest ih =>
    intro hs h
    exact ih (processBlock hs blk) rfl

theorem flatten_wordBytes_length (hs : List Nat) :
    ((hs.map wordBytes).flatten).length = 4 * hs.length := by
  induction hs with
  | nil => rfl
  | cons w rest ih =>
    simp only [List.map_cons, List.flatten_cons, List.length_append, ih,
      List.length_cons, wordBytes]
    simp
    omega

theorem sha256_length (msg : List Nat) : (sha256 msg).length = 32 := by
  unfold sha256
  rw [flatten_wordBytes_length, foldl_processBlock_length _ shaH0 rfl]

theorem localDirHandleBody_length (vfsPath path : String) (salt : List Nat) :
    (localDirHandleBody vfsPath path salt).length = 44 := by
  unfold localDirHandleBody
  have hlen := b64Encode_length b64CharStd
    (sha256 (asciiBytes vfsPath ++ asciiBytes path ++ salt)).length
    (sha256 (asciiBytes vfsPath ++ asciiBytes path ++ salt)) le_rfl
  rw [sha256_length] at hlen
  show (b64Encode b64CharStd (sha256 (asciiBytes vfsPath ++ asciiBytes path ++ salt))).length = 44
  rw [hlen]

/-- Claim C8 (amended): the rendered wire form of every handle produced by
`LocalDir::open` / `open_dir` is `"file_<body>"` / `"dir_<body>"` where the
body is the *standard* (not url-safe) padded base64 encoding of the 32-byte
SHA-256 digest of the vfs root, the path, and the salt; the body is 44
characters, so the total wire form is 49 (file) or 48 (dir) characters,
well within the 250-byte limit. -/
theorem handle_render_structure (vfsPath path : String) (salt : List Nat) :
    (LocalDirOpenHandle vfsPath path salt).render =
      "file_" ++ localDirHandleBody vfsPath path salt
    ∧ (LocalDirOpenDirHandle vfsPath path salt).render =
      "dir_" ++ localDirHandleBody vfsPath path salt
    ∧ (sha256 (asciiBytes vfsPath ++ asciiBytes path ++ salt)).length = 32
    ∧ (LocalDirOpenHandle vfsPath path salt).render.length = 49
    ∧ (LocalDirOpenDirHandle vfsPath path salt).render.length = 48
    ∧ (LocalDirOpenHandle vfsPath path salt).render.length ≤ 250
    ∧ (LocalDirOpenDirHandle vfsPath path salt).render.length ≤ 250 := by
  have hbody := localDirHandleBody_length vfsPath path salt
  have hfile : (LocalDirOpenHandle vfsPath path salt).render =
      "file_" ++ localDirHandleBody vfsPath path salt := rfl
  have hdir : (LocalDirOpenDirHandle vfsPath path salt).render =
      "dir_" ++ localDirHandleBody vfsPath path salt := rfl
  have hflen : (LocalDirOpenHandle vfsPath path salt).render.length = 49 := by
    rw [hfile, String.length_append, hbody]
    decide
  have hdlen : (LocalDirOpenDirHandle vfsPath path salt).render.length = 48 := by
    rw [hdir, String.length_append, hbody]
    decide
  exact ⟨hfile, hdir, sha256_length _, hflen, hdlen, by omega, by omega⟩

end Schlep
